import Mathlib

/- Verification of the Canvas assignment processor (src/main.ts), an Obsidian
plugin that syncs Canvas LMS assignments into local notes.  The TypeScript
source is shallowly embedded below: strings are lists of characters
(`Str`), the JavaScript string operations the source uses (`includes`,
`toLowerCase`, `startsWith`, regexp `replace`, `JSON.stringify`, number
to string) are given executable embeddings, and the stateful reconciliation
loop becomes explicit state passing over a `World` record. -/

/-- Model of a JavaScript string: its list of characters. -/
abbrev Str : Type := List Char

/-- ASCII lowering of one character, the fragment of JavaScript
`String.prototype.toLowerCase` relevant to the ASCII course data the
plugin handles. -/
def jsToLower (c : Char) : Char :=
  if 65 ≤ c.toNat ∧ c.toNat ≤ 90 then Char.ofNat (c.toNat + 32) else c

/-- `s.toLowerCase()` on ASCII data. -/
def lowerStr (s : Str) : Str := s.map jsToLower

/-- `hay.includes(pat)`: `pat` occurs as a contiguous substring of `hay`. -/
def strContains : Str → Str → Bool
  | [], pat => pat.isEmpty
  | c :: t, pat => pat.isPrefixOf (c :: t) || strContains t pat

/-- The plugin settings record (`CanvasAssignmentProcessorSettings`). -/
structure PluginSettings where
  canvasToken : Str
  canvasApiBase : Str
  templatePath : Str
  semester : Str
  year : Str

/-- A Canvas course as consumed by the plugin (`CanvasCourse`);
`termName` models the optional `term?.name`. -/
structure CanvasCourse where
  id : Nat
  name : Str
  course_code : Str
  termName : Option Str

/-- `isCurrentSemesterCourse` (src/main.ts lines 234-246): the OR of five
case-insensitive containment heuristics over course name, course code and
term name. -/
def isCurrentSemesterCourse (st : PluginSettings) (course : CanvasCourse) : Bool :=
  let courseName := lowerStr course.name
  let courseCode := lowerStr course.course_code
  let termName := match course.termName with
    | some t => lowerStr t
    | none => []
  let semesterYear := lowerStr st.semester ++ [' '] ++ st.year
  strContains courseName semesterYear ||
  strContains courseCode (st.year ++ lowerStr st.semester) ||
  strContains courseCode (st.year ++ lowerStr st.semester ++ ['c']) ||
  (strContains courseCode (lowerStr st.semester) && strContains courseCode st.year) ||
  strContains termName (st.year ++ [' '] ++ lowerStr st.semester)

/-- The default settings' semester/year of interest: `Spring` / `2025`. -/
def spring2025 : PluginSettings :=
  { canvasToken := []
    canvasApiBase := []
    templatePath := []
    semester := ("Spring").data
    year := ("2025").data }

theorem strContains_iff_infixOf (hay pat : Str) :
    strContains hay pat = true ↔ pat <:+: hay := by
  induction hay with
  | nil =>
    simp only [strContains, List.isEmpty_iff]
    exact Iff.intro (fun h => h ▸ List.infix_rfl) (fun h => List.eq_nil_of_infix_nil h)
  | cons c t ih =>
    simp only [strContains, Bool.or_eq_true, List.isPrefixOf_iff_prefix, ih,
      List.infix_cons_iff]

theorem strContains_of_infixOf {hay pat pat' : Str}
    (h : strContains hay pat = true) (hsub : strContains pat pat' = true) :
    strContains hay pat' = true := by
  rw [strContains_iff_infixOf] at *
  exact hsub.trans h

/-- C2 counterexample: with semester `Spring` and year `2025`, a course whose
code is `2025SPc` (name and term not matching) is NOT accepted by
`isCurrentSemesterCourse`: the lowercased code `2025spc` contains neither
`2025spring` nor the token `spring`, so all five disjuncts are false. -/
theorem isCurrentSemesterCourse_spc_false :
    isCurrentSemesterCourse spring2025 ⟨1, ("Biology").data, ("2025SPc").data, none⟩ = false := by
  decide

/-- C2 (amended): with semester `Spring` and year `2025`,
`isCurrentSemesterCourse` accepts a course whose code is `2025Springc`
(name and term name not contributing a match), and rejects every course
whose name, code and term name contain neither the lowercase semester
token `spring` nor the year token `2025`. -/
theorem isCurrentSemesterCourse_spec :
    isCurrentSemesterCourse spring2025 ⟨1, [], ("2025Springc").data, none⟩ = true ∧
    ∀ course : CanvasCourse,
      strContains (lowerStr course.name) (("spring").data) = false →
      strContains (lowerStr course.name) (("2025").data) = false →
      strContains (lowerStr course.course_code) (("spring").data) = false →
      strContains (lowerStr course.course_code) (("2025").data) = false →
      (∀ t, course.termName = some t →
        strContains (lowerStr t) (("spring").data) = false ∧
        strContains (lowerStr t) (("2025").data) = false) →
      isCurrentSemesterCourse spring2025 course = false := by
  refine ⟨by decide, ?_⟩
  intro course hn1 _hn2 hc1 hc2 ht
  rcases course with ⟨cid, nm, cc, tn⟩
  rcases tn with _ | t
  all_goals rw [Bool.eq_false_iff]
  all_goals intro h
  all_goals simp only [isCurrentSemesterCourse, Bool.or_eq_true, Bool.and_eq_true] at h
  · rcases h with (((h | h) | h) | ⟨h, h2⟩) | h
    · have hx : strContains (lowerStr nm) (("spring").data) = true :=
        strContains_of_infixOf h (by decide)
      simp [hx] at hn1
    · have hx : strContains (lowerStr cc) (("2025").data) = true :=
        strContains_of_infixOf h (by decide)
      simp [hx] at hc2
    · have hx : strContains (lowerStr cc) (("2025").data) = true :=
        strContains_of_infixOf h (by decide)
      simp [hx] at hc2
    · have hx : strContains (lowerStr cc) (("spring").data) = true :=
        strContains_of_infixOf h (by decide)
      simp [hx] at hc1
    · exact absurd h (by decide)
  · rcases h with (((h | h) | h) | ⟨h, h2⟩) | h
    · have hx : strContains (lowerStr nm) (("spring").data) = true :=
        strContains_of_infixOf h (by decide)
      simp [hx] at hn1
    · have hx : strContains (lowerStr cc) (("2025").data) = true :=
        strContains_of_infixOf h (by decide)
      simp [hx] at hc2
    · have hx : strContains (lowerStr cc) (("2025").data) = true :=
        strContains_of_infixOf h (by decide)
      simp [hx] at hc2
    · have hx : strContains (lowerStr cc) (("spring").data) = true :=
        strContains_of_infixOf h (by decide)
      simp [hx] at hc1
    · have hx : strContains (lowerStr t) (("2025").data) = true :=
        strContains_of_infixOf h (by decide)
      simp [hx] at ht

/-- Code points of the JavaScript regexp class `\s` (ES whitespace plus
line terminators), used by `/\s+/g` and `String.prototype.trim`. -/
def jsWsCodes : List Nat :=
  [9, 10, 11, 12, 13, 32, 160, 5760, 8192, 8193, 8194, 8195, 8196, 8197,
   8198, 8199, 8200, 8201, 8202, 8232, 8233, 8239, 8287, 12288, 65279]

/-- Whether `c` matches the JavaScript regexp `\s`. -/
def isJsWs (c : Char) : Bool := jsWsCodes.contains c.toNat

/-- JavaScript regexp line terminators (which `.` never matches and `$`
matches before in multiline mode): LF, CR, U+2028, U+2029. -/
def isLineTerm (c : Char) : Bool :=
  c = '\n' || c = '\r' || decide (c.toNat = 8232) || decide (c.toNat = 8233)

/-- `[A-Z]` of the source's regexps. -/
def isUpperAZ (c : Char) : Bool := decide (65 ≤ c.toNat ∧ c.toNat ≤ 90)

/-- `[0-9]` (and `\d`) of the source's regexps. -/
def isDigit09 (c : Char) : Bool := decide (48 ≤ c.toNat ∧ c.toNat ≤ 57)

/-- Scan for the `]` closing a lazy `\[.*?\]` match: the nearest `]` with no
line terminator before it (`.` does not match line terminators); returns
what follows it. -/
def findCloseBracket : Str → Option Str
  | [] => none
  | c :: t =>
    if c = ']' then some t
    else if isLineTerm c then none
    else findCloseBracket t

/-- Fuelled worker for `name.replace(/\[.*?\]/g, '')`: at each position, if a
lazy bracketed group matches, drop it and continue after it; otherwise keep
the character.  Each step consumes at least one character, so fuel equal to
the length of the list never runs out. -/
def removeBracketsF : Nat → Str → Str
  | 0, l => l
  | _ + 1, [] => []
  | fuel + 1, c :: t =>
    if c = '[' then
      match findCloseBracket t with
      | some t2 => removeBracketsF fuel t2
      | none => c :: removeBracketsF fuel t
    else c :: removeBracketsF fuel t

/-- `name.replace(/\[.*?\]/g, '')` (src/main.ts line 289). -/
def removeBrackets (l : Str) : Str := removeBracketsF l.length l

/-- `name.replace(/-[A-Z]{3}[0-9]{3}-/g, '')` (src/main.ts line 290):
left-to-right scan, a match consumes its eight characters (so the
trailing `-` is not reconsidered), a non-match emits one character. -/
def removeCourseTokens : Str → Str
  | '-' :: a :: b :: c :: d :: e :: f :: '-' :: rest =>
    if isUpperAZ a && isUpperAZ b && isUpperAZ c &&
        isDigit09 d && isDigit09 e && isDigit09 f then
      removeCourseTokens rest
    else
      '-' :: removeCourseTokens (a :: b :: c :: d :: e :: f :: '-' :: rest)
  | x :: rest => x :: removeCourseTokens rest
  | [] => []

/-- If `l` starts with `\d{4}-\d{2}-\d{2}`, the rest of `l` after it. -/
def dateAt : Str → Option Str
  | y1 :: y2 :: y3 :: y4 :: '-' :: m1 :: m2 :: '-' :: d1 :: d2 :: rest =>
    if isDigit09 y1 && isDigit09 y2 && isDigit09 y3 && isDigit09 y4 &&
        isDigit09 m1 && isDigit09 m2 && isDigit09 d1 && isDigit09 d2 then
      some rest
    else none
  | _ => none

/-- `name.replace(/\d{4}-\d{2}-\d{2}/, '')` (src/main.ts line 291): only the
first (leftmost) date is removed. -/
def removeFirstDate : Str → Str
  | [] => []
  | c :: t =>
    match dateAt (c :: t) with
    | some rest => rest
    | none => c :: removeFirstDate t

/-- The characters of the regexp class `[\*"\\/<>:|?]` (src/main.ts line 292). -/
def illegalChars : Str := ['*', '"', '\\', '/', '<', '>', ':', '|', '?']

/-- `name.replace(/[\*"\\/<>:|?]/g, '')`. -/
def removeIllegal (l : Str) : Str := l.filter (fun c => !(illegalChars.contains c))

/-- `name.replace(/\s+/g, ' ')` (src/main.ts line 293): every maximal run of
whitespace becomes a single space. -/
def collapseWs : Str → Str
  | [] => []
  | [c] => if isJsWs c then [' '] else [c]
  | c1 :: c2 :: rest =>
    if isJsWs c1 then
      if isJsWs c2 then collapseWs (c2 :: rest)
      else ' ' :: collapseWs (c2 :: rest)
    else c1 :: collapseWs (c2 :: rest)

/-- `name.trim()` (src/main.ts line 294). -/
def trimStr (l : Str) : Str :=
  ((l.dropWhile isJsWs).reverse.dropWhile isJsWs).reverse

/-- `cleanAssignmentName` (src/main.ts lines 288-296): strip bracketed tags,
`-XXX###-` course tokens and the first ISO date, drop filesystem-illegal
characters, collapse whitespace and trim. -/
def cleanAssignmentName (name : Str) : Str :=
  trimStr (collapseWs (removeIllegal (removeFirstDate (removeCourseTokens
    (removeBrackets name)))))

theorem trimStr_infixOf (l : Str) : trimStr l <:+: l := by
  unfold trimStr
  have h1 : List.dropWhile isJsWs l <:+ l := List.dropWhile_suffix _
  have h2 : (l.dropWhile isJsWs).reverse.dropWhile isJsWs <:+
      (l.dropWhile isJsWs).reverse := List.dropWhile_suffix _
  have h3 : ((l.dropWhile isJsWs).reverse.dropWhile isJsWs).reverse <+:
      l.dropWhile isJsWs := by
    rw [← List.reverse_suffix]
    simpa using h2
  exact h3.isInfix.trans h1.isInfix

theorem mem_collapseWs {c : Char} {l : Str} (h : c ∈ collapseWs l) :
    c = ' ' ∨ c ∈ l := by
  induction l with
  | nil => simp [collapseWs] at h
  | cons c1 t ih =>
    cases t with
    | nil =>
      by_cases hw : isJsWs c1 = true
      · simp [collapseWs, hw] at h
        exact Or.inl h
      · simp [collapseWs, hw] at h
        exact Or.inr (by simp [h])
    | cons c2 rest =>
      by_cases hw : isJsWs c1 = true
      · by_cases hw2 : isJsWs c2 = true
        · rw [show collapseWs (c1 :: c2 :: rest) = collapseWs (c2 :: rest) by
            simp [collapseWs, hw, hw2]] at h
          rcases ih h with h' | h'
          · exact Or.inl h'
          · exact Or.inr (List.mem_cons_of_mem _ h')
        · rw [show collapseWs (c1 :: c2 :: rest) = ' ' :: collapseWs (c2 :: rest) by
            simp [collapseWs, hw, hw2]] at h
          rcases List.mem_cons.mp h with h' | h'
          · exact Or.inl h'
          · rcases ih h' with h'' | h''
            · exact Or.inl h''
            · exact Or.inr (List.mem_cons_of_mem _ h'')
      · rw [show collapseWs (c1 :: c2 :: rest) = c1 :: collapseWs (c2 :: rest) by
          simp [collapseWs, hw]] at h
        rcases List.mem_cons.mp h with h' | h'
        · exact Or.inr (by simp [h'])
        · rcases ih h' with h'' | h''
          · exact Or.inl h''
          · exact Or.inr (List.mem_cons_of_mem _ h'')

/-- C5: `cleanAssignmentName` turns `[HW] Essay -ENG101- 2025-03-01*` into
`Essay` (bracketed tag, `-XXX###-` token, ISO date and `*` all stripped,
whitespace collapsed and trimmed), and no character of the illegal class
`*"\/<>:|?` ever survives in its output. -/
theorem cleanAssignmentName_spec :
    cleanAssignmentName (("[HW] Essay -ENG101- 2025-03-01*").data) = ("Essay").data ∧
    ∀ s : Str, ∀ c ∈ cleanAssignmentName s, illegalChars.contains c = false := by
  refine ⟨by decide, ?_⟩
  intro s c hc
  have hc2 : c ∈ collapseWs (removeIllegal (removeFirstDate (removeCourseTokens
      (removeBrackets s)))) :=
    List.IsInfix.mem hc (trimStr_infixOf _)
  rcases mem_collapseWs hc2 with rfl | hc3
  · decide
  · have := (List.mem_filter.mp hc3).2
    simpa using this

/-- No two adjacent characters of `l` are both whitespace. -/
def wsSeparated (l : Str) : Prop :=
  List.Chain' (fun a b => ¬(isJsWs a = true ∧ isJsWs b = true)) l

theorem collapseWs_head {c : Char} (l : Str) (h : isJsWs c = false) :
    (collapseWs (c :: l)).head? = some c := by
  cases l <;> simp [collapseWs, h]

theorem ws_mem_collapseWs {c : Char} {l : Str} (hmem : c ∈ collapseWs l)
    (hws : isJsWs c = true) : c = ' ' := by
  induction l with
  | nil => simp [collapseWs] at hmem
  | cons c1 t ih =>
    cases t with
    | nil =>
      by_cases hw : isJsWs c1 = true
      · simpa [collapseWs, hw] using hmem
      · simp [collapseWs, hw] at hmem
        subst hmem
        simp [hws] at hw
    | cons c2 rest =>
      by_cases hw : isJsWs c1 = true
      · by_cases hw2 : isJsWs c2 = true
        · rw [show collapseWs (c1 :: c2 :: rest) = collapseWs (c2 :: rest) by
            simp [collapseWs, hw, hw2]] at hmem
          exact ih hmem
        · rw [show collapseWs (c1 :: c2 :: rest) = ' ' :: collapseWs (c2 :: rest) by
            simp [collapseWs, hw, hw2]] at hmem
          rcases List.mem_cons.mp hmem with h' | h'
          · exact h'
          · exact ih h'
      · rw [show collapseWs (c1 :: c2 :: rest) = c1 :: collapseWs (c2 :: rest) by
          simp [collapseWs, hw]] at hmem
        rcases List.mem_cons.mp hmem with h' | h'
        · subst h'
          simp [hws] at hw
        · exact ih h'

theorem wsSeparated_collapseWs (l : Str) : wsSeparated (collapseWs l) := by
  induction l with
  | nil => simp [collapseWs, wsSeparated]
  | cons c1 t ih =>
    cases t with
    | nil =>
      by_cases hw : isJsWs c1 = true <;> simp [collapseWs, wsSeparated, hw]
    | cons c2 rest =>
      by_cases hw : isJsWs c1 = true
      · by_cases hw2 : isJsWs c2 = true
        · rw [wsSeparated, show collapseWs (c1 :: c2 :: rest) = collapseWs (c2 :: rest) by
            simp [collapseWs, hw, hw2]]
          exact ih
        · rw [wsSeparated, show collapseWs (c1 :: c2 :: rest) = ' ' :: collapseWs (c2 :: rest) by
            simp [collapseWs, hw, hw2]]
          cases hshape : collapseWs (c2 :: rest) with
          | nil => simp
          | cons x tl =>
            have hx : x = c2 := by
              have := collapseWs_head rest (show isJsWs c2 = false by simpa using hw2)
              rw [hshape] at this
              simpa using this
            rw [List.chain'_cons]
            constructor
            · rw [hx]
              simp [hw2]
            · have := ih
              rw [wsSeparated, hshape] at this
              exact this
      · rw [wsSeparated, show collapseWs (c1 :: c2 :: rest) = c1 :: collapseWs (c2 :: rest) by
          simp [collapseWs, hw]]
        cases hshape : collapseWs (c2 :: rest) with
        | nil => simp
        | cons x tl =>
          rw [List.chain'_cons]
          constructor
          · simp [hw]
          · have := ih
            rw [wsSeparated, hshape] at this
            exact this

theorem collapseWs_eq_self {l : Str} (h1 : ∀ c ∈ l, isJsWs c = true → c = ' ')
    (h2 : wsSeparated l) : collapseWs l = l := by
  induction l with
  | nil => simp [collapseWs]
  | cons c1 t ih =>
    cases t with
    | nil =>
      by_cases hw : isJsWs c1 = true
      · have := h1 c1 (by simp) hw
        simp [collapseWs, hw, this]
      · simp [collapseWs, hw]
    | cons c2 rest =>
      by_cases hw : isJsWs c1 = true
      · have hc1 : c1 = ' ' := h1 c1 (by simp) hw
        have hw2 : isJsWs c2 = false := by
          rw [wsSeparated, List.chain'_cons] at h2
          rcases h2 with ⟨hr, _⟩
          by_contra hx
          exact hr ⟨hw, by simpa using hx⟩
        rw [show collapseWs (c1 :: c2 :: rest) = ' ' :: collapseWs (c2 :: rest) by
          simp [collapseWs, hw, hw2]]
        rw [hc1]
        congr 1
        apply ih
        · intro c hc hcs
          exact h1 c (List.mem_cons_of_mem _ hc) hcs
        · rw [wsSeparated, List.chain'_cons] at h2
          exact h2.2
      · rw [show collapseWs (c1 :: c2 :: rest) = c1 :: collapseWs (c2 :: rest) by
          simp [collapseWs, hw]]
        congr 1
        apply ih
        · intro c hc hcs
          exact h1 c (List.mem_cons_of_mem _ hc) hcs
        · rw [wsSeparated, List.chain'_cons] at h2
          exact h2.2

theorem dropWhile_eq_self_of_head {p : Char → Bool} {l : Str}
    (h : ∀ x, l.head? = some x → p x = false) : l.dropWhile p = l := by
  cases l with
  | nil => rfl
  | cons c t => simp [List.dropWhile_cons, h c rfl]

theorem trimStr_drop_right (l : Str) :
    (trimStr l).reverse.dropWhile isJsWs = (trimStr l).reverse := by
  unfold trimStr
  rw [List.reverse_reverse]
  exact List.dropWhile_idempotent _ _

theorem trimStr_drop_left (l : Str) :
    (trimStr l).dropWhile isJsWs = trimStr l := by
  apply dropWhile_eq_self_of_head
  intro x hx
  unfold trimStr at hx
  rw [List.head?_reverse] at hx
  rcases List.dropWhile_suffix (l := (l.dropWhile isJsWs).reverse) isJsWs with ⟨z, hz⟩
  have hlast : (l.dropWhile isJsWs).reverse.getLast? = some x := by
    rw [← hz, List.getLast?_append, hx]
    rfl
  rw [List.getLast?_reverse] at hlast
  have := List.head?_dropWhile_not isJsWs l
  rw [hlast] at this
  exact this

theorem trimStr_eq_self {l : Str} (h1 : l.dropWhile isJsWs = l)
    (h2 : l.reverse.dropWhile isJsWs = l.reverse) : trimStr l = l := by
  unfold trimStr
  rw [h1, h2, List.reverse_reverse]

/-- C6: `cleanAssignmentName` is idempotent on every input that carries no
residual illegal pattern after one pass, i.e. whose cleaned form is fixed
by each of the four pattern-removal steps (no complete bracketed tag, no
`-XXX###-` token, no ISO date, no illegal character remains). -/
theorem cleanAssignmentName_idem (x : Str)
    (hb : removeBrackets (cleanAssignmentName x) = cleanAssignmentName x)
    (hc : removeCourseTokens (cleanAssignmentName x) = cleanAssignmentName x)
    (hd : removeFirstDate (cleanAssignmentName x) = cleanAssignmentName x)
    (hi : removeIllegal (cleanAssignmentName x) = cleanAssignmentName x) :
    cleanAssignmentName (cleanAssignmentName x) = cleanAssignmentName x := by
  conv_lhs => rw [cleanAssignmentName]
  rw [hb, hc, hd, hi]
  have hcol : collapseWs (cleanAssignmentName x) = cleanAssignmentName x := by
    apply collapseWs_eq_self
    · intro c hmem hws
      rw [cleanAssignmentName] at hmem
      have h2 : c ∈ collapseWs (removeIllegal (removeFirstDate (removeCourseTokens
          (removeBrackets x)))) := List.IsInfix.mem hmem (trimStr_infixOf _)
      exact ws_mem_collapseWs h2 hws
    · rw [cleanAssignmentName]
      exact List.Chain'.infix (wsSeparated_collapseWs _) (trimStr_infixOf _)
  rw [hcol]
  apply trimStr_eq_self
  · conv_lhs => rw [cleanAssignmentName]
    conv_rhs => rw [cleanAssignmentName]
    exact trimStr_drop_left _
  · conv_lhs => rw [cleanAssignmentName]
    conv_rhs => rw [cleanAssignmentName]
    exact trimStr_drop_right _

/-- C6 witness: idempotence at the concrete title
`[HW] Essay -ENG101- 2025-03-01*`, whose cleaned form `Essay` has no
residual pattern. -/
theorem cleanAssignmentName_idem_witness :
    cleanAssignmentName (cleanAssignmentName (("[HW] Essay -ENG101- 2025-03-01*").data)) =
      cleanAssignmentName (("[HW] Essay -ENG101- 2025-03-01*").data) :=
  cleanAssignmentName_idem _ (by decide) (by decide) (by decide) (by decide)

/-- The character for decimal digit `d`. -/
def digitChar10 (d : Nat) : Char := Char.ofNat (48 + d)

/-- Little-endian base-10 digits, fuelled so that it reduces in the kernel;
fuel at least `n` always suffices. -/
def toDigitsRev : Nat → Nat → List Nat
  | 0, _ => []
  | f + 1, n => if n = 0 then [] else n % 10 :: toDigitsRev f (n / 10)

/-- Little-endian base-10 digits of `n`. -/
def natDigitsRev (n : Nat) : List Nat := toDigitsRev n n

theorem toDigitsRev_eq_digits : ∀ fuel n, n ≤ fuel → toDigitsRev fuel n = Nat.digits 10 n := by
  intro fuel
  induction fuel with
  | zero =>
    intro n hn
    interval_cases n
    simp [toDigitsRev]
  | succ f ih =>
    intro n hn
    by_cases h0 : n = 0
    · subst h0
      simp [toDigitsRev]
    · rw [toDigitsRev, if_neg h0, Nat.digits_def' (by omega) (by omega),
        ih (n / 10) (by
          have := Nat.div_lt_self (by omega : 0 < n) (by omega : 1 < 10)
          omega)]

theorem natDigitsRev_eq_digits (n : Nat) : natDigitsRev n = Nat.digits 10 n :=
  toDigitsRev_eq_digits n n le_rfl

/-- JavaScript stringification of a nonnegative integer (`String(n)` and
template-literal interpolation). -/
def natStr (n : Nat) : Str :=
  if n = 0 then ['0'] else ((natDigitsRev n).map digitChar10).reverse

/-- JavaScript stringification of an integer. -/
def intStr (i : Int) : Str :=
  if i < 0 then '-' :: natStr (-i).toNat else natStr i.toNat

/-- The URL `getAllPages` requests for a page (src/main.ts line 125):
`baseUrl` plus `?`/`&` plus `page=N&per_page=100`. -/
def pageUrl (baseUrl : Str) (page : Nat) : Str :=
  baseUrl ++ (if strContains baseUrl ['?'] then ['&'] else ['?']) ++
  ("page=").data ++ natStr page ++ ("&per_page=100").data

/-- The `while (hasMore)` loop of `getAllPages` (src/main.ts lines 119-151),
fuelled.  Returns the accumulated items and the list of URLs requested, in
order.  A page of more than zero items is appended and pagination moves on;
a page of fewer than 100 items (also an empty one) is the last; a request
failure ends pagination, keeping what was accumulated.  Each loop
iteration consumes one unit of fuel. -/
def getAllPagesGo {α : Type} (fetch : Str → Except Unit (List α)) (baseUrl : Str) :
    Nat → Nat → List α → List Str → List α × List Str
  | 0, _, acc, reqs => (acc, reqs)
  | fuel + 1, page, acc, reqs =>
    match fetch (pageUrl baseUrl page) with
    | Except.error _ => (acc, reqs ++ [pageUrl baseUrl page])
    | Except.ok data =>
      if data.length > 0 then
        if data.length < 100 then (acc ++ data, reqs ++ [pageUrl baseUrl page])
        else getAllPagesGo fetch baseUrl fuel (page + 1) (acc ++ data)
          (reqs ++ [pageUrl baseUrl page])
      else (acc, reqs ++ [pageUrl baseUrl page])

/-- `getAllPages<T>(baseUrl)` (src/main.ts lines 119-151): start at page 1
with nothing accumulated. -/
def getAllPages {α : Type} (fetch : Str → Except Unit (List α)) (baseUrl : Str)
    (fuel : Nat) : List α × List Str :=
  getAllPagesGo fetch baseUrl fuel 1 [] []

theorem getAllPagesGo_full {α : Type} (fetch : Str → Except Unit (List α))
    (baseUrl : Str) (pages : Nat → List α) :
    ∀ (n p : Nat) (acc : List α) (reqs : List Str) (fuel : Nat),
      n + 1 ≤ fuel →
      (∀ i, p ≤ i → i < p + n → (pages i).length = 100) →
      (pages (p + n)).length < 100 →
      (∀ i, p ≤ i → i ≤ p + n → fetch (pageUrl baseUrl i) = Except.ok (pages i)) →
      getAllPagesGo fetch baseUrl fuel p acc reqs =
        (acc ++ (List.range' p (n + 1)).flatMap pages,
         reqs ++ (List.range' p (n + 1)).map (pageUrl baseUrl)) := by
  intro n
  induction n with
  | zero =>
    intro p acc reqs fuel hfuel _hfull hlast hfetch
    obtain ⟨f, rfl⟩ : ∃ f, fuel = f + 1 := ⟨fuel - 1, by omega⟩
    have hf := hfetch p le_rfl (by omega)
    simp only [Nat.add_zero] at hlast
    by_cases hz : (pages p).length > 0
    · simp [getAllPagesGo, hf, hz, hlast, List.range'_one]
    · have : pages p = [] := by
        rw [← List.length_eq_zero]
        omega
      simp [getAllPagesGo, hf, hz, hlast, List.range'_one, this]
  | succ n ih =>
    intro p acc reqs fuel hfuel hfull hlast hfetch
    obtain ⟨f, rfl⟩ : ∃ f, fuel = f + 1 := ⟨fuel - 1, by omega⟩
    have hf := hfetch p le_rfl (by omega)
    have hlen : (pages p).length = 100 := hfull p le_rfl (by omega)
    have hstep := ih (p + 1) (acc ++ pages p) (reqs ++ [pageUrl baseUrl p]) f
      (by omega)
      (fun i h1 h2 => hfull i (by omega) (by omega))
      (by
        have : p + 1 + n = p + (n + 1) := by omega
        rw [this]
        exact hlast)
      (fun i h1 h2 => hfetch i (by omega) (by omega))
    simp only [getAllPagesGo, hf, hlen]
    norm_num
    rw [hstep, List.range'_succ, List.flatMap_cons, List.map_cons]
    simp only [List.append_assoc, List.singleton_append, Prod.mk.injEq, true_and,
      List.append_cancel_left_eq]
    constructor
    · rw [List.range'_succ, List.flatMap_cons, List.range'_succ, List.flatMap_cons]
    · rw [List.range'_succ, List.map_cons, List.range'_succ, List.map_cons]

/-- C1: against a mock page source holding `N` full pages of 100 items and
then a short page (fewer than 100 items, possibly empty), `getAllPages`
requests exactly the `N+1` URLs `page=1&per_page=100` through
`page=N+1&per_page=100` and returns the concatenation of all pages in
request order. -/
theorem getAllPages_paginates {α : Type} (fetch : Str → Except Unit (List α))
    (baseUrl : Str) (pages : Nat → List α) (N fuel : Nat)
    (hfull : ∀ p, 1 ≤ p → p ≤ N → (pages p).length = 100)
    (hlast : (pages (N + 1)).length < 100)
    (hfetch : ∀ p, 1 ≤ p → p ≤ N + 1 → fetch (pageUrl baseUrl p) = Except.ok (pages p))
    (hfuel : N + 1 ≤ fuel) :
    getAllPages fetch baseUrl fuel =
      ((List.range' 1 (N + 1)).flatMap pages,
       (List.range' 1 (N + 1)).map (pageUrl baseUrl)) ∧
    ((List.range' 1 (N + 1)).map (pageUrl baseUrl)).length = N + 1 := by
  constructor
  · have := getAllPagesGo_full fetch baseUrl pages N 1 [] [] fuel hfuel
      (fun i h1 h2 => hfull i h1 (by omega))
      (by
        have : (1 : Nat) + N = N + 1 := by omega
        rw [this]
        exact hlast)
      (fun i h1 h2 => hfetch i h1 (by omega))
    simpa [getAllPages] using this
  · simp

/-- Mock page source for the pagination witness: page 1 is full (100
items), page 2 holds a single item. -/
def mockPages (p : Nat) : List Nat :=
  if p ≤ 1 then List.replicate 100 0 else [7]

/-- Mock fetch answering exactly the two URLs of `mockPages`. -/
def mockFetch (u : Str) : Except Unit (List Nat) :=
  if u = pageUrl [] 1 then Except.ok (mockPages 1)
  else if u = pageUrl [] 2 then Except.ok (mockPages 2)
  else Except.error ()

/-- C1 witness: one full page then a short page means exactly two requests
and the 101 items concatenated in order. -/
theorem getAllPages_paginates_witness :
    getAllPages mockFetch [] 5 =
      ((List.range' 1 2).flatMap mockPages,
       (List.range' 1 2).map (pageUrl [])) ∧
    ((List.range' 1 2).map (pageUrl ([] : Str))).length = 2 :=
  getAllPages_paginates mockFetch [] mockPages 1 5
    (by
      intro p h1 h2
      have : p = 1 := by omega
      subst this
      simp [mockPages])
    (by decide)
    (by
      intro p h1 h2
      interval_cases p <;> rfl)
    (by omega)

/-- A Canvas assignment after course enrichment (`CanvasAssignment`). -/
structure CanvasAssignment where
  id : Nat
  name : Str
  description : Str
  html_url : Str
  points_possible : Int
  due_at : Option Str
  course_code : Str
  course_name : Str
  course : Str
deriving DecidableEq

/-- An assignment as fetched from the API, before the course fields are
filled in (`Partial<CanvasAssignment>` in the source). -/
structure RawAssignment where
  id : Nat
  name : Str
  description : Str
  html_url : Str
  points_possible : Int
  due_at : Option Str
deriving DecidableEq

/-- Whether `l` begins with a `[A-Z]{3}[0-9]{3}` code; if so, that code. -/
def courseCodeAt : Str → Option Str
  | a :: b :: c :: d :: e :: f :: _ =>
    if isUpperAZ a && isUpperAZ b && isUpperAZ c &&
        isDigit09 d && isDigit09 e && isDigit09 f then
      some [a, b, c, d, e, f]
    else none
  | _ => none

/-- `course_code.match(/([A-Z]{3}[0-9]{3})/)`: the first such code in the
string, if any. -/
def findCourseCode : Str → Option Str
  | [] => none
  | c :: t =>
    match courseCodeAt (c :: t) with
    | some code => some code
    | none => findCourseCode t

/-- The per-assignment enrichment of src/main.ts lines 268-276: copy the
fetched fields and add `course_code`, `course_name` and the extracted (or
fallback) `course` key. -/
def enrichAssignment (course : CanvasCourse) (a : RawAssignment) : CanvasAssignment :=
  { id := a.id
    name := a.name
    description := a.description
    html_url := a.html_url
    points_possible := a.points_possible
    due_at := a.due_at
    course_code := course.course_code
    course_name := course.name
    course := (findCourseCode course.course_code).getD course.course_code }

/-- The courses listing URL (src/main.ts line 251). -/
def coursesUrl (st : PluginSettings) : Str :=
  st.canvasApiBase ++ ("/courses?include[]=term&enrollment_state=active").data

/-- The per-course assignments URL (src/main.ts line 263). -/
def assignmentsUrl (st : PluginSettings) (courseId : Nat) : Str :=
  st.canvasApiBase ++ ("/courses/").data ++ natStr courseId ++
    ("/assignments?include[]=submission").data

/-- The `for (const course of currentSemesterCourses)` loop of
`fetchCanvasAssignments` (src/main.ts lines 258-283): fetch each course's
assignments with `getAllPages`, enrich them, and append. -/
def assignmentsLoop (st : PluginSettings)
    (assignFetch : Str → Except Unit (List RawAssignment)) (fuel : Nat) :
    List CanvasCourse → List CanvasAssignment → List CanvasAssignment
  | [], acc => acc
  | course :: rest, acc =>
    let fetched := (getAllPages assignFetch (assignmentsUrl st course.id) fuel).1
    assignmentsLoop st assignFetch fuel rest (acc ++ fetched.map (enrichAssignment course))

/-- `fetchCanvasAssignments` (src/main.ts lines 248-286): list the courses,
keep the current-semester ones, and collect every course's enriched
assignments. -/
def fetchCanvasAssignments (st : PluginSettings)
    (courseFetch : Str → Except Unit (List CanvasCourse))
    (assignFetch : Str → Except Unit (List RawAssignment)) (fuel : Nat) :
    List CanvasAssignment :=
  let courses := (getAllPages courseFetch (coursesUrl st) fuel).1
  let currentSemesterCourses := courses.filter (fun c => isCurrentSemesterCourse st c)
  assignmentsLoop st assignFetch fuel currentSemesterCourses []

theorem assignmentsLoop_eq (st : PluginSettings)
    (assignFetch : Str → Except Unit (List RawAssignment)) (fuel : Nat) :
    ∀ (cs : List CanvasCourse) (acc : List CanvasAssignment),
      assignmentsLoop st assignFetch fuel cs acc =
        acc ++ cs.flatMap (fun c =>
          ((getAllPages assignFetch (assignmentsUrl st c.id) fuel).1).map
            (enrichAssignment c)) := by
  intro cs
  induction cs with
  | nil => simp [assignmentsLoop]
  | cons c rest ih =>
    intro acc
    rw [assignmentsLoop, ih, List.flatMap_cons, List.append_assoc]

theorem getAllPagesGo_error {α : Type} (fetch : Str → Except Unit (List α))
    (baseUrl : Str) (pages : Nat → List α) :
    ∀ (n p : Nat) (acc : List α) (reqs : List Str) (fuel : Nat),
      n + 1 ≤ fuel →
      (∀ i, p ≤ i → i < p + n → fetch (pageUrl baseUrl i) = Except.ok (pages i)) →
      (∀ i, p ≤ i → i < p + n → (pages i).length = 100) →
      fetch (pageUrl baseUrl (p + n)) = Except.error () →
      getAllPagesGo fetch baseUrl fuel p acc reqs =
        (acc ++ (List.range' p n).flatMap pages,
         reqs ++ (List.range' p (n + 1)).map (pageUrl baseUrl)) := by
  intro n
  induction n with
  | zero =>
    intro p acc reqs fuel hfuel _hok _hfull herr
    obtain ⟨f, rfl⟩ : ∃ f, fuel = f + 1 := ⟨fuel - 1, by omega⟩
    simp only [Nat.add_zero] at herr
    simp [getAllPagesGo, herr, List.range'_one]
  | succ n ih =>
    intro p acc reqs fuel hfuel hok hfull herr
    obtain ⟨f, rfl⟩ : ∃ f, fuel = f + 1 := ⟨fuel - 1, by omega⟩
    have hf := hok p le_rfl (by omega)
    have hlen : (pages p).length = 100 := hfull p le_rfl (by omega)
    have hstep := ih (p + 1) (acc ++ pages p) (reqs ++ [pageUrl baseUrl p]) f
      (by omega)
      (fun i h1 h2 => hok i (by omega) (by omega))
      (fun i h1 h2 => hfull i (by omega) (by omega))
      (by
        have : p + 1 + n = p + (n + 1) := by omega
        rw [this]
        exact herr)
    simp only [getAllPagesGo, hf, hlen]
    norm_num
    rw [hstep]
    simp only [List.append_assoc, List.singleton_append, Prod.mk.injEq, true_and,
      List.append_cancel_left_eq]
    constructor
    · rfl
    · rfl

/-- C3: when one current-semester course's assignment fetch fails at page
`j+1` after `j` full pages, `fetchCanvasAssignments` still returns a result
(the failure is not propagated): that course contributes exactly the items
accumulated before the failure, and every other course before and after it
is processed normally. -/
theorem fetchCanvasAssignments_partial (st : PluginSettings)
    (courseFetch : Str → Except Unit (List CanvasCourse))
    (assignFetch : Str → Except Unit (List RawAssignment)) (fuel : Nat)
    (pre post : List CanvasCourse) (c : CanvasCourse)
    (pages : Nat → List RawAssignment) (j : Nat)
    (hsplit : ((getAllPages courseFetch (coursesUrl st) fuel).1).filter
        (fun k => isCurrentSemesterCourse st k) = pre ++ c :: post)
    (hfuel : j + 1 ≤ fuel)
    (hok : ∀ i, 1 ≤ i → i < 1 + j →
      assignFetch (pageUrl (assignmentsUrl st c.id) i) = Except.ok (pages i))
    (hfull : ∀ i, 1 ≤ i → i < 1 + j → (pages i).length = 100)
    (herr : assignFetch (pageUrl (assignmentsUrl st c.id) (1 + j)) = Except.error ()) :
    fetchCanvasAssignments st courseFetch assignFetch fuel =
      pre.flatMap (fun k =>
        ((getAllPages assignFetch (assignmentsUrl st k.id) fuel).1).map
          (enrichAssignment k)) ++
      ((List.range' 1 j).flatMap pages).map (enrichAssignment c) ++
      post.flatMap (fun k =>
        ((getAllPages assignFetch (assignmentsUrl st k.id) fuel).1).map
          (enrichAssignment k)) := by
  have hC : (getAllPages assignFetch (assignmentsUrl st c.id) fuel).1 =
      (List.range' 1 j).flatMap pages := by
    rw [getAllPages, getAllPagesGo_error assignFetch (assignmentsUrl st c.id) pages
      j 1 [] [] fuel hfuel hok hfull herr]
    simp
  simp only [fetchCanvasAssignments]
  rw [hsplit, assignmentsLoop_eq, List.nil_append, List.flatMap_append,
    List.flatMap_cons, hC, List.append_assoc]

/-- Mock current-semester course whose assignment fetch fails immediately. -/
def mockCourseA : CanvasCourse := ⟨1, [], ("2025Springc").data, none⟩

/-- Mock current-semester course whose assignment fetch succeeds. -/
def mockCourseB : CanvasCourse := ⟨2, [], ("2025Springc").data, none⟩

/-- Mock fetched assignment for `mockCourseB`. -/
def mockAssignment : RawAssignment := ⟨10, ("HW1").data, [], [], 5, none⟩

/-- Mock course listing: one page with the two mock courses. -/
def mockCourseFetch (u : Str) : Except Unit (List CanvasCourse) :=
  if u = pageUrl (coursesUrl spring2025) 1 then Except.ok [mockCourseA, mockCourseB]
  else Except.error ()

/-- Mock assignment source: course 1's very first page request throws,
course 2 returns a single short page. -/
def mockAssignFetch (u : Str) : Except Unit (List RawAssignment) :=
  if u = pageUrl (assignmentsUrl spring2025 1) 1 then Except.error ()
  else if u = pageUrl (assignmentsUrl spring2025 2) 1 then Except.ok [mockAssignment]
  else Except.error ()

/-- C3 witness: course 1's fetch throws on its first page, yet the run
returns course 2's assignments (course 1 contributes the empty prefix it
had accumulated). -/
theorem fetchCanvasAssignments_partial_witness :
    fetchCanvasAssignments spring2025 mockCourseFetch mockAssignFetch 3 =
      ([] : List CanvasCourse).flatMap (fun k =>
        ((getAllPages mockAssignFetch (assignmentsUrl spring2025 k.id) 3).1).map
          (enrichAssignment k)) ++
      ((List.range' 1 0).flatMap (fun _ => [])).map (enrichAssignment mockCourseA) ++
      [mockCourseB].flatMap (fun k =>
        ((getAllPages mockAssignFetch (assignmentsUrl spring2025 k.id) 3).1).map
          (enrichAssignment k)) :=
  fetchCanvasAssignments_partial spring2025 mockCourseFetch mockAssignFetch 3
    [] [mockCourseB] mockCourseA (fun _ => []) 0
    (by rfl)
    (by omega)
    (by
      intro i h1 h2
      omega)
    (by
      intro i h1 h2
      omega)
    (by rfl)

/-- Lowercase hexadecimal digit character, as ECMAScript `QuoteJSONString`
prints `\uNNNN` escapes. -/
def hexDigitChar (d : Nat) : Char :=
  if d < 10 then Char.ofNat (48 + d) else Char.ofNat (87 + d)

/-- Value of a lowercase hexadecimal digit character. -/
def hexVal (c : Char) : Nat :=
  if 48 ≤ c.toNat ∧ c.toNat ≤ 57 then c.toNat - 48
  else if 97 ≤ c.toNat ∧ c.toNat ≤ 102 then c.toNat - 87
  else 0

/-- JSON escaping of one character per ECMAScript `QuoteJSONString`
(ordinary code points; Lean characters are never lone surrogates). -/
def escapeChar (c : Char) : Str :=
  if c = '"' then ['\\', '"']
  else if c = '\\' then ['\\', '\\']
  else if c.toNat = 8 then ['\\', 'b']
  else if c.toNat = 9 then ['\\', 't']
  else if c.toNat = 10 then ['\\', 'n']
  else if c.toNat = 12 then ['\\', 'f']
  else if c.toNat = 13 then ['\\', 'r']
  else if c.toNat < 32 then
    ['\\', 'u', '0', '0', hexDigitChar (c.toNat / 16), hexDigitChar (c.toNat % 16)]
  else [c]

/-- JSON escaping of a whole string body. -/
def escapeStr (s : Str) : Str := s.flatMap escapeChar

/-- `JSON.stringify`'s quoting of the string `s`, followed by the
continuation `rest`. -/
def quoteCont (s rest : Str) : Str := '"' :: (escapeStr s ++ '"' :: rest)

/-- `getAssignmentHash` (src/main.ts lines 198-206):
`JSON.stringify({name, description, points_possible, html_url})`.  The
insertion order of the four keys is fixed by the object literal, so the
serialisation is canonical. -/
def getAssignmentHash (a : CanvasAssignment) : Str :=
  ("\x7b\"name\":").data ++ quoteCont a.name (
    (",\"description\":").data ++ quoteCont a.description (
      (",\"points_possible\":").data ++ intStr a.points_possible ++
      (",\"html_url\":").data ++ quoteCont a.html_url (("\x7d").data)))

/-- Decoder of one JSON string-body token; inverse of `escapeChar`. -/
def decodeTok : Str → Option (Char × Str)
  | [] => none
  | c :: rest =>
    if c = '\\' then
      match rest with
      | [] => none
      | k :: rest2 =>
        if k = '"' then some ('"', rest2)
        else if k = '\\' then some ('\\', rest2)
        else if k = 'b' then some (Char.ofNat 8, rest2)
        else if k = 't' then some (Char.ofNat 9, rest2)
        else if k = 'n' then some (Char.ofNat 10, rest2)
        else if k = 'f' then some (Char.ofNat 12, rest2)
        else if k = 'r' then some (Char.ofNat 13, rest2)
        else if k = 'u' then
          match rest2 with
          | h1 :: h2 :: h3 :: h4 :: rest3 =>
            some (Char.ofNat (4096 * hexVal h1 + 256 * hexVal h2 +
              16 * hexVal h3 + hexVal h4), rest3)
          | _ => none
        else none
    else some (c, rest)

theorem hexVal_hexDigitChar {d : Nat} (h : d < 16) : hexVal (hexDigitChar d) = d := by
  have : ∀ x, x < 16 → hexVal (hexDigitChar x) = x := by decide
  exact this d h

theorem decodeTok_escapeChar (c : Char) (x : Str) :
    decodeTok (escapeChar c ++ x) = some (c, x) := by
  unfold escapeChar
  split_ifs with h1 h2 h3 h4 h5 h6 h7 h8
  · subst h1
    rfl
  · subst h2
    rfl
  · have hc : c = Char.ofNat 8 := by
      rw [← Char.ofNat_toNat c, h3]
    subst hc
    rfl
  · have hc : c = Char.ofNat 9 := by
      rw [← Char.ofNat_toNat c, h4]
    subst hc
    rfl
  · have hc : c = Char.ofNat 10 := by
      rw [← Char.ofNat_toNat c, h5]
    subst hc
    rfl
  · have hc : c = Char.ofNat 12 := by
      rw [← Char.ofNat_toNat c, h6]
    subst hc
    rfl
  · have hc : c = Char.ofNat 13 := by
      rw [← Char.ofNat_toNat c, h7]
    subst hc
    rfl
  · have hstep : decodeTok (['\\', 'u', '0', '0', hexDigitChar (c.toNat / 16),
        hexDigitChar (c.toNat % 16)] ++ x) =
        some (Char.ofNat (4096 * hexVal '0' + 256 * hexVal '0' +
          16 * hexVal (hexDigitChar (c.toNat / 16)) +
          hexVal (hexDigitChar (c.toNat % 16))), x) := rfl
    have key : 4096 * hexVal '0' + 256 * hexVal '0' +
        16 * hexVal (hexDigitChar (c.toNat / 16)) +
        hexVal (hexDigitChar (c.toNat % 16)) = c.toNat := by
      rw [hexVal_hexDigitChar (by omega), hexVal_hexDigitChar (by omega)]
      have hv0 : hexVal '0' = 0 := by decide
      rw [hv0]
      omega
    rw [hstep, key, Char.ofNat_toNat]
  · show decodeTok (c :: x) = some (c, x)
    rw [decodeTok.eq_def]
    simp only []
    rw [if_neg h2]

theorem escapeChar_head_ne_quote (c : Char) :
    ∃ d t, escapeChar c = d :: t ∧ d ≠ '"' := by
  unfold escapeChar
  split_ifs with h1 h2 h3 h4 h5 h6 h7 h8
  · exact ⟨'\\', _, rfl, by decide⟩
  · exact ⟨'\\', _, rfl, by decide⟩
  · exact ⟨'\\', _, rfl, by decide⟩
  · exact ⟨'\\', _, rfl, by decide⟩
  · exact ⟨'\\', _, rfl, by decide⟩
  · exact ⟨'\\', _, rfl, by decide⟩
  · exact ⟨'\\', _, rfl, by decide⟩
  · exact ⟨'\\', _, rfl, by decide⟩
  · exact ⟨c, [], rfl, h1⟩

theorem escapeStr_cancel : ∀ (s1 s2 r1 r2 : Str),
    escapeStr s1 ++ '"' :: r1 = escapeStr s2 ++ '"' :: r2 → s1 = s2 ∧ r1 = r2 := by
  intro s1
  induction s1 with
  | nil =>
    intro s2 r1 r2 h
    cases s2 with
    | nil =>
      simp only [escapeStr, List.flatMap_nil, List.nil_append, List.cons.injEq] at h
      exact ⟨rfl, h.2⟩
    | cons c2 t2 =>
      exfalso
      rcases escapeChar_head_ne_quote c2 with ⟨d, t, he, hd⟩
      simp only [escapeStr, List.flatMap_nil, List.flatMap_cons, List.nil_append,
        he, List.cons_append, List.append_assoc, List.cons.injEq] at h
      exact hd h.1.symm
  | cons c1 t1 ih =>
    intro s2 r1 r2 h
    cases s2 with
    | nil =>
      exfalso
      rcases escapeChar_head_ne_quote c1 with ⟨d, t, he, hd⟩
      simp only [escapeStr, List.flatMap_nil, List.flatMap_cons, List.nil_append,
        he, List.cons_append, List.append_assoc, List.cons.injEq] at h
      exact hd h.1
    | cons c2 t2 =>
      simp only [escapeStr, List.flatMap_cons, List.append_assoc] at h
      have hd1 := decodeTok_escapeChar c1 (t1.flatMap escapeChar ++ '"' :: r1)
      have hd2 := decodeTok_escapeChar c2 (t2.flatMap escapeChar ++ '"' :: r2)
      rw [h, hd2] at hd1
      have hc : c2 = c1 ∧ t2.flatMap escapeChar ++ '"' :: r2 =
          t1.flatMap escapeChar ++ '"' :: r1 := by
        simpa using hd1
      rcases hc with ⟨hc, hx⟩
      subst hc
      have := ih t2 r1 r2 (by
        show t1.flatMap escapeChar ++ '"' :: r1 = t2.flatMap escapeChar ++ '"' :: r2
        exact hx.symm)
      exact ⟨by rw [this.1], this.2⟩

theorem natStr_digits {n : Nat} : ∀ c ∈ natStr n, isDigit09 c = true := by
  intro c hc
  unfold natStr at hc
  split_ifs at hc with h0
  · simp at hc
    subst hc
    decide
  · rw [List.mem_reverse, List.mem_map] at hc
    rcases hc with ⟨d, hd, rfl⟩
    rw [natDigitsRev_eq_digits] at hd
    have hlt : d < 10 := Nat.digits_lt_base (by omega) hd
    unfold digitChar10 isDigit09
    have : ∀ x, x < 10 → decide (48 ≤ (Char.ofNat (48 + x)).toNat ∧
        (Char.ofNat (48 + x)).toNat ≤ 57) = true := by decide
    exact this d hlt

theorem natStr_ne_nil (n : Nat) : natStr n ≠ [] := by
  unfold natStr
  split_ifs with h0
  · simp
  · simp only [ne_eq, List.reverse_eq_nil_iff, List.map_eq_nil_iff]
    rw [natDigitsRev_eq_digits]
    exact Nat.digits_ne_nil_iff_ne_zero.mpr h0

theorem natStr_inj {a b : Nat} (h : natStr a = natStr b) : a = b := by
  have hmapinj : ∀ (l1 l2 : List Nat), (∀ d ∈ l1, d < 10) → (∀ d ∈ l2, d < 10) →
      l1.map digitChar10 = l2.map digitChar10 → l1 = l2 := by
    intro l1
    induction l1 with
    | nil =>
      intro l2 _ _ h
      cases l2 with
      | nil => rfl
      | cons c t => simp at h
    | cons c1 t1 ih =>
      intro l2 hb1 hb2 h
      cases l2 with
      | nil => simp at h
      | cons c2 t2 =>
        simp only [List.map_cons, List.cons.injEq] at h
        have hc : c1 = c2 := by
          have hinj : ∀ x, x < 10 → ∀ y, y < 10 → digitChar10 x = digitChar10 y →
              x = y := by decide
          exact hinj c1 (hb1 c1 (by simp)) c2 (hb2 c2 (by simp)) h.1
        rw [hc, ih t2 (fun d hd => hb1 d (by simp [hd]))
          (fun d hd => hb2 d (by simp [hd])) h.2]
  unfold natStr at h
  split_ifs at h with h0 h1
  · omega
  · exfalso
    have : Nat.digits 10 b ≠ [] := Nat.digits_ne_nil_iff_ne_zero.mpr h1
    have hlast := Nat.getLast_digit_ne_zero 10 h1
    rw [natDigitsRev_eq_digits] at h
    have h' : (Nat.digits 10 b).map digitChar10 = ['0'] := by
      rw [← List.reverse_inj]
      simpa using h.symm
    rcases hx : Nat.digits 10 b with _ | ⟨d, t⟩
    · exact this hx
    · rw [hx] at h'
      cases t with
      | nil =>
        simp only [List.map_cons, List.map_nil, List.cons.injEq] at h'
        have hd10 : d < 10 := Nat.digits_lt_base (by omega) (by rw [hx]; simp)
        have : d = 0 := by
          have hinj : ∀ x, x < 10 → digitChar10 x = '0' → x = 0 := by decide
          exact hinj d hd10 h'.1
        have hb0 := Nat.ofDigits_digits 10 b
        rw [hx, this] at hb0
        simp [Nat.ofDigits] at hb0
        omega
      | cons d2 t2 => simp at h'
  · exfalso
    have : Nat.digits 10 a ≠ [] := Nat.digits_ne_nil_iff_ne_zero.mpr h0
    have hlast := Nat.getLast_digit_ne_zero 10 h0
    rw [natDigitsRev_eq_digits] at h
    have h' : (Nat.digits 10 a).map digitChar10 = ['0'] := by
      rw [← List.reverse_inj]
      simpa using h
    rcases hx : Nat.digits 10 a with _ | ⟨d, t⟩
    · exact this hx
    · rw [hx] at h'
      cases t with
      | nil =>
        simp only [List.map_cons, List.map_nil, List.cons.injEq] at h'
        have hd10 : d < 10 := Nat.digits_lt_base (by omega) (by rw [hx]; simp)
        have : d = 0 := by
          have hinj : ∀ x, x < 10 → digitChar10 x = '0' → x = 0 := by decide
          exact hinj d hd10 h'.1
        have hb0 := Nat.ofDigits_digits 10 a
        rw [hx, this] at hb0
        simp [Nat.ofDigits] at hb0
        omega
      | cons d2 t2 => simp at h'
  · rw [natDigitsRev_eq_digits, natDigitsRev_eq_digits, List.reverse_inj] at h
    have := hmapinj _ _ (fun d hd => Nat.digits_lt_base (by omega) hd)
      (fun d hd => Nat.digits_lt_base (by omega) hd) h
    calc a = Nat.ofDigits 10 (Nat.digits 10 a) := (Nat.ofDigits_digits 10 a).symm
      _ = Nat.ofDigits 10 (Nat.digits 10 b) := by rw [this]
      _ = b := Nat.ofDigits_digits 10 b

theorem intStr_inj {a b : Int} (h : intStr a = intStr b) : a = b := by
  have hhead : ∀ (n : Nat) (c : Char) (t : Str), natStr n = c :: t → c ≠ '-' := by
    intro n c t hn hc
    have := natStr_digits (n := n) c (by rw [hn]; simp)
    subst hc
    simp [isDigit09] at this
  unfold intStr at h
  split_ifs at h with ha hb hb
  · simp only [List.cons.injEq] at h
    have := natStr_inj h.2
    omega
  · exfalso
    rcases hx : natStr b.toNat with _ | ⟨c, t⟩
    · exact natStr_ne_nil _ hx
    · rw [hx] at h
      simp only [List.cons.injEq] at h
      exact hhead _ _ _ hx h.1.symm
  · exfalso
    rcases hx : natStr a.toNat with _ | ⟨c, t⟩
    · exact natStr_ne_nil _ hx
    · rw [hx] at h
      simp only [List.cons.injEq] at h
      exact hhead _ _ _ hx h.1
  · have := natStr_inj h
    omega

theorem intStr_no_comma {i : Int} : ∀ c ∈ intStr i, c ≠ ',' := by
  intro c hc
  unfold intStr at hc
  have hdig : ∀ (n : Nat) (d : Char), d ∈ natStr n → d ≠ ',' := by
    intro n d hd hcom
    have := natStr_digits (n := n) d hd
    subst hcom
    simp [isDigit09] at this
  split_ifs at hc with ha
  · rcases List.mem_cons.mp hc with rfl | hc2
    · decide
    · exact hdig _ _ hc2
  · exact hdig _ _ hc

theorem append_comma_inj : ∀ (A B x y : Str), (∀ c ∈ A, c ≠ ',') →
    (∀ c ∈ B, c ≠ ',') → A ++ ',' :: x = B ++ ',' :: y → A = B ∧ x = y := by
  intro A
  induction A with
  | nil =>
    intro B x y _ hB h
    cases B with
    | nil =>
      simp only [List.nil_append, List.cons.injEq] at h
      exact ⟨rfl, h.2⟩
    | cons b tB =>
      exfalso
      simp only [List.nil_append, List.cons_append, List.cons.injEq] at h
      exact hB b (by simp) h.1.symm
  | cons a tA ih =>
    intro B x y hA hB h
    cases B with
    | nil =>
      exfalso
      simp only [List.nil_append, List.cons_append, List.cons.injEq] at h
      exact hA a (by simp) h.1
    | cons b tB =>
      simp only [List.cons_append, List.cons.injEq] at h
      have := ih tB x y (fun c hc => hA c (by simp [hc]))
        (fun c hc => hB c (by simp [hc])) h.2
      exact ⟨by rw [h.1, this.1], this.2⟩

/-- C4: two assignments have the same fingerprint (`getAssignmentHash`) if
and only if they agree on `name`, `description`, `points_possible` and
`html_url`; in particular changing only `due_at` never changes the
fingerprint. -/
theorem getAssignmentHash_spec :
    (∀ a1 a2 : CanvasAssignment,
      getAssignmentHash a1 = getAssignmentHash a2 ↔
        (a1.name = a2.name ∧ a1.description = a2.description ∧
         a1.points_possible = a2.points_possible ∧ a1.html_url = a2.html_url)) ∧
    (∀ (a : CanvasAssignment) (d : Option Str),
      getAssignmentHash { a with due_at := d } = getAssignmentHash a) := by
  constructor
  · intro a1 a2
    constructor
    · intro h
      unfold getAssignmentHash at h
      have h1 := List.append_cancel_left h
      simp only [quoteCont, List.cons.injEq, true_and] at h1
      obtain ⟨hname, hrest⟩ := escapeStr_cancel _ _ _ _ h1
      have h2 := List.append_cancel_left hrest
      simp only [List.cons.injEq, true_and] at h2
      obtain ⟨hdesc, hrest2⟩ := escapeStr_cancel _ _ _ _ h2
      simp only [List.append_assoc] at hrest2
      have h3 := List.append_cancel_left hrest2
      simp only [List.cons_append, List.nil_append] at h3
      obtain ⟨hp, hrest3⟩ := append_comma_inj _ _ _ _
        (fun c hc => intStr_no_comma c hc) (fun c hc => intStr_no_comma c hc) h3
      have hpoints := intStr_inj hp
      simp only [List.cons.injEq, true_and] at hrest3
      obtain ⟨hurl, _⟩ := escapeStr_cancel _ _ _ _ hrest3
      exact ⟨hname, hdesc, hpoints, hurl⟩
    · intro ⟨h1, h2, h3, h4⟩
      unfold getAssignmentHash
      rw [h1, h2, h3, h4]
  · intro a d
    rfl

/-- A markdown file of the vault as the plugin sees it (`TFile`): full
path, basename, and current content. -/
structure VaultFile where
  path : Str
  basename : Str
  content : Str
deriving DecidableEq

/-- The state `createAssignmentNotes` reads and mutates: the vault's
files and folders, the in-memory `processedAssignments` fingerprint store,
and the four outcome counters. -/
structure World where
  files : List VaultFile
  folders : List Str
  store : List (Str × Str)
  createdCount : Nat
  updatedCount : Nat
  dueDateUpdatedCount : Nat
  skippedCount : Nat
deriving DecidableEq

/-- Failure-injection points for the fallible vault operations the loop
body wraps in `try`/`catch`, plus the two external `moment` formatters
(`YYYY-MM-DD` and `MMMM Do YYYY`). -/
structure ItemEnv where
  mkdirFail : Bool
  createFail : Bool
  updateFail : Bool
  dueDateWriteFail : Bool
  fmtShort : Str → Str
  fmtLong : Str → Str

/-- `processedAssignments[key]`. -/
def lookupStore (store : List (Str × Str)) (k : Str) : Option Str :=
  (store.find? (fun p => decide (p.1 = k))).map (fun p => p.2)

/-- `processedAssignments[key] = value` (JavaScript object assignment:
overwrite the key if present, append it otherwise). -/
def insertStore : List (Str × Str) → Str → Str → List (Str × Str)
  | [], k, v => [(k, v)]
  | (k0, v0) :: t, k, v =>
    if k0 = k then (k0, v) :: t else (k0, v0) :: insertStore t k v

theorem lookupStore_insertStore (store : List (Str × Str)) (k v : Str) :
    lookupStore (insertStore store k v) k = some v := by
  induction store with
  | nil => simp [insertStore, lookupStore, List.find?]
  | cons p t ih =>
    rcases p with ⟨k0, v0⟩
    by_cases hk : k0 = k
    · subst hk
      simp [insertStore, lookupStore, List.find?]
    · simp only [insertStore, if_neg hk, lookupStore, List.find?]
      rw [show (decide (k0 = k)) = false by simp [hk]]
      exact ih

/-- `this.app.vault.getAbstractFileByPath(p)` over the modelled vault. -/
def findFile (files : List VaultFile) (p : Str) : Option VaultFile :=
  files.find? (fun f => decide (f.path = p))

/-- `this.app.vault.modify(file, newContent)`: replace that file's content. -/
def setFileContent (files : List VaultFile) (p newContent : Str) : List VaultFile :=
  files.map (fun f => if f.path = p then ⟨f.path, f.basename, newContent⟩ else f)

/-- `findExistingAssignmentFile` (src/main.ts lines 181-196): the first
markdown file under `directoryPath` whose cleaned basename equals the
cleaned assignment name. -/
def findExistingAssignmentFile (files : List VaultFile)
    (directoryPath cleanedName : Str) : Option VaultFile :=
  (files.filter (fun f => directoryPath.isPrefixOf f.path)).find?
    (fun f => decide (cleanAssignmentName f.basename = cleanedName))

/-- Index of the first occurrence of `pat` in `l` (JavaScript
`String.prototype.indexOf` / leftmost regexp match of a literal). -/
def firstSubIdx : Str → Str → Option Nat
  | [], pat => if pat.isEmpty then some 0 else none
  | c :: t, pat =>
    if pat.isPrefixOf (c :: t) then some 0
    else (firstSubIdx t pat).map (fun i => i + 1)

/-- ECMAScript `GetSubstitution` over a replacement template without
capture groups: `$$`, `$&`, `` $` `` and `$'` are substituted, everything
else is literal. -/
def expandRepl (matched before after : Str) : Str → Str
  | [] => []
  | '$' :: rest =>
    match rest with
    | [] => ['$']
    | k :: r2 =>
      if k = '$' then '$' :: expandRepl matched before after r2
      else if k = '&' then matched ++ expandRepl matched before after r2
      else if k.toNat = 96 then before ++ expandRepl matched before after r2
      else if k.toNat = 39 then after ++ expandRepl matched before after r2
      else '$' :: expandRepl matched before after (k :: r2)
  | c :: rest => c :: expandRepl matched before after rest

/-- `String.prototype.replace` once the match `[i, i+len)` is known:
prefix, expanded replacement template, suffix. -/
def jsReplaceAt (content : Str) (i len : Nat) (tmpl : Str) : Str :=
  content.take i ++
  expandRepl ((content.drop i).take len) (content.take i) (content.drop (i + len)) tmpl ++
  content.drop (i + len)

/-- The heading the content update anchors on. -/
def detailsMarker : Str := ("## Assignment Details").data

/-- `content.replace(/## Assignment Details[\s\S]*$/, tmpl)` (src/main.ts
lines 385-388): from the first occurrence of the heading to the end of the
content; no occurrence means no change. -/
def replaceDetailsOnward (content tmpl : Str) : Str :=
  match firstSubIdx content detailsMarker with
  | some i => jsReplaceAt content i (content.length - i) tmpl
  | none => content

/-- The replacement text of the content update (src/main.ts line 387). -/
def detailsTmpl (a : CanvasAssignment) : Str :=
  ("## Assignment Details\nPoints: ").data ++ intStr a.points_possible ++
  ("\n\n### Description\n").data ++ a.description ++
  ("\n\n[View on Canvas](").data ++ a.html_url ++ (")\n").data

/-- The content written by the content-update branch. -/
def updatedDetailsContent (a : CanvasAssignment) (existingContent : Str) : Str :=
  replaceDetailsOnward existingContent (detailsTmpl a)

/-- `content.replace(/<marker> .*$/m, tmpl)`: at the first occurrence of
the literal `marker`, the match runs to the end of that line. -/
def jsReplaceLineM (content marker tmpl : Str) : Str :=
  match firstSubIdx content marker with
  | some i =>
    jsReplaceAt content i
      (marker.length +
        ((content.drop (i + marker.length)).takeWhile (fun c => !(isLineTerm c))).length)
      tmpl
  | none => content

/-- `updateDueDate` (src/main.ts lines 208-232) as a content transform:
rewrite the `duedate: ...` metadata line and the `Due Date: ...` body line
(`MMMM Do YYYY` formatted, or `No Due Date` for an empty date). -/
def updateDueDateContent (fmtLong : Str → Str) (content newDueDate : Str) : Str :=
  let c1 := jsReplaceLineM content (("duedate: ").data) ((("duedate: ").data) ++ newDueDate)
  let formatted := if newDueDate.isEmpty then ("No Due Date").data else fmtLong newDueDate
  jsReplaceLineM c1 (("Due Date: ").data) ((("Due Date: ").data) ++ formatted)

/-- Group 1 of the lazy `(.*?)(\n|$)` after `duedate: `: characters up to
the first LF or the end; a CR/LS/PS before any LF makes this start
position fail and the scan move on. -/
def grabLazyLine : Str → Option Str
  | [] => some []
  | c :: rest =>
    if c = '\n' then some []
    else if isLineTerm c then none
    else (grabLazyLine rest).map (fun g => c :: g)

/-- `fileContent.match(/duedate: (.*?)(\n|$)/)`, group 1 (src/main.ts
line 400). -/
def extractDueDate : Str → Option Str
  | [] => none
  | c :: t =>
    if (("duedate: ").data).isPrefixOf (c :: t) then
      match grabLazyLine ((c :: t).drop 9) with
      | some g => some g
      | none => extractDueDate t
    else extractDueDate t

/-- The target directory `<semester> <year>/<courseKey>/Assignments`
(src/main.ts line 322). -/
def directoryPathOf (st : PluginSettings) (a : CanvasAssignment) : Str :=
  (st.semester ++ [' '] ++ st.year) ++ ['/'] ++ a.course ++ ("/Assignments").data

/-- The dedup key `(courseKey + "-" + cleanedName).toLowerCase()`
(src/main.ts line 332). -/
def dedupKey (a : CanvasAssignment) : Str :=
  lowerStr (a.course ++ ['-'] ++ cleanAssignmentName a.name)

/-- `vault.createFolder` effect on the folder set. -/
def addFolder (folders : List Str) (f : Str) : List Str :=
  if f ∈ folders then folders else folders ++ [f]

/-- The enriched content of a freshly created note (src/main.ts lines
361-369): template body plus the generated Assignment Details section. -/
def enrichedContent (tmpl : Str) (a : CanvasAssignment) : Str :=
  tmpl ++ ("\n\n## Assignment Details\n").data ++
  ("Points: ").data ++ intStr a.points_possible ++ ("\n").data ++
  (if a.description.isEmpty then [] else
    ("\n### Description\n").data ++ a.description ++ ("\n").data) ++
  (if a.html_url.isEmpty then [] else
    ("\n[View on Canvas](").data ++ a.html_url ++ (")\n").data)

/-- The trimmed current due date parsed from a note body (src/main.ts
lines 400-401): group 1 of the first `duedate:` match, or the empty
string. -/
def currentDueOf (content : Str) : Str :=
  match extractDueDate content with
  | some g => trimStr g
  | none => []

/-- `formattedDate` (src/main.ts lines 325-327): the due date through
`moment(...).format('YYYY-MM-DD')`, or the empty string when null. -/
def formattedDateOf (env : ItemEnv) (a : CanvasAssignment) : Str :=
  match a.due_at with
  | some d => env.fmtShort d
  | none => []

/-- Whether the change detector classifies the assignment as Changed: a
prior fingerprint exists for its dedup key and differs from the current
one (src/main.ts line 381). -/
def contentChanged (w : World) (a : CanvasAssignment) : Bool :=
  match lookupStore w.store (dedupKey a) with
  | some h => decide (h ≠ getAssignmentHash a)
  | none => false

/-- The due-date phase of the loop body (src/main.ts lines 399-412) plus
the unconditional fingerprint-store write of line 415.  `f` carries the
content the file has at this point (the loop re-reads the file). -/
def duePhase (env : ItemEnv) (w : World) (f : VaultFile)
    (key hash formattedDate : Str) : World :=
  if currentDueOf f.content ≠ formattedDate then
    if env.dueDateWriteFail then
      { w with store := insertStore w.store key hash }
    else
      { w with
        files := setFileContent w.files f.path
          (updateDueDateContent env.fmtLong f.content formattedDate),
        dueDateUpdatedCount := w.dueDateUpdatedCount + 1,
        store := insertStore w.store key hash }
  else
    { w with
      skippedCount := w.skippedCount + 1,
      store := insertStore w.store key hash }

/-- One iteration of the `for (const assignment of assignments)` loop of
`createAssignmentNotes` (src/main.ts lines 318-416).  The external
template-expansion step on a freshly created note is the collaborator's
and is not modelled beyond the created content. -/
def processAssignment (st : PluginSettings) (env : ItemEnv) (w : World)
    (a : CanvasAssignment) : World :=
  let directoryPath := directoryPathOf st a
  let cleanedName := cleanAssignmentName a.name
  let formattedDate := formattedDateOf env a
  let formattedTitle := cleanedName ++ (" [Assignment] [-").data ++ a.course ++
    ("-] ").data ++ formattedDate
  let newNotePath := directoryPath ++ ['/'] ++ formattedTitle ++ (".md").data
  let assignmentKey := dedupKey a
  let currentHash := getAssignmentHash a
  if env.mkdirFail then w
  else
    let semesterStr := st.semester ++ [' '] ++ st.year
    let w1 := { w with
      folders := addFolder (addFolder (addFolder w.folders semesterStr)
        (semesterStr ++ ['/'] ++ a.course)) directoryPath }
    match findExistingAssignmentFile w.files directoryPath cleanedName with
    | none =>
      match findFile w.files st.templatePath, env.createFail with
      | some tmplFile, false =>
        { w1 with
          files := w.files ++ [⟨newNotePath, formattedTitle,
            enrichedContent tmplFile.content a⟩],
          createdCount := w.createdCount + 1,
          store := insertStore w.store assignmentKey currentHash }
      | _, _ => w1
    | some f =>
      if contentChanged w a then
        if env.updateFail then w1
        else
          let newContent := updatedDetailsContent a f.content
          duePhase env
            { w1 with
              files := setFileContent w.files f.path newContent,
              updatedCount := w.updatedCount + 1 }
            ⟨f.path, f.basename, newContent⟩ assignmentKey currentHash formattedDate
      else
        duePhase env w1 f assignmentKey currentHash formattedDate

theorem duePhase_store (env : ItemEnv) (w : World) (f : VaultFile)
    (key hash fd : Str) :
    (duePhase env w f key hash fd).store = insertStore w.store key hash := by
  unfold duePhase
  split_ifs <;> rfl

theorem duePhase_updatedCount (env : ItemEnv) (w : World) (f : VaultFile)
    (key hash fd : Str) :
    (duePhase env w f key hash fd).updatedCount = w.updatedCount := by
  unfold duePhase
  split_ifs <;> rfl

theorem duePhase_createdCount (env : ItemEnv) (w : World) (f : VaultFile)
    (key hash fd : Str) :
    (duePhase env w f key hash fd).createdCount = w.createdCount := by
  unfold duePhase
  split_ifs <;> rfl

theorem duePhase_due_skip (env : ItemEnv) (w : World) (f : VaultFile)
    (key hash fd : Str) (hdw : env.dueDateWriteFail = false) :
    ((duePhase env w f key hash fd).dueDateUpdatedCount = w.dueDateUpdatedCount + 1 ∧
     (duePhase env w f key hash fd).skippedCount = w.skippedCount) ∨
    ((duePhase env w f key hash fd).dueDateUpdatedCount = w.dueDateUpdatedCount ∧
     (duePhase env w f key hash fd).skippedCount = w.skippedCount + 1) := by
  unfold duePhase
  by_cases h1 : currentDueOf f.content ≠ fd
  · rw [if_pos h1, hdw]
    rw [if_neg (show ¬ (false = true) by simp)]
    left
    exact ⟨rfl, rfl⟩
  · rw [if_neg h1]
    right
    exact ⟨rfl, rfl⟩

theorem duePhase_files_skip (env : ItemEnv) (w : World) (f : VaultFile)
    (key hash fd : Str) (h : currentDueOf f.content = fd) :
    (duePhase env w f key hash fd).files = w.files := by
  unfold duePhase
  rw [if_neg (by simp [h])]

/-- C8: every assignment whose iteration completes without an
error-continue (directories create, and the create or content-update
step, when reached, succeeds) ends with the in-memory fingerprint store
holding the assignment's current fingerprint at its dedup key — whichever
branch ran, including the unchanged/skip one. -/
theorem processAssignment_store (st : PluginSettings) (env : ItemEnv) (w : World)
    (a : CanvasAssignment)
    (hmk : env.mkdirFail = false)
    (hcr : findExistingAssignmentFile w.files (directoryPathOf st a)
        (cleanAssignmentName a.name) = none →
      (∃ tf, findFile w.files st.templatePath = some tf) ∧ env.createFail = false)
    (hup : contentChanged w a = true → env.updateFail = false) :
    lookupStore (processAssignment st env w a).store (dedupKey a) =
      some (getAssignmentHash a) := by
  unfold processAssignment
  simp only [hmk, Bool.false_eq_true, if_false]
  split
  next hfind =>
    obtain ⟨⟨tf, htf⟩, hcf⟩ := hcr hfind
    rw [htf, hcf]
    show lookupStore (insertStore w.store (dedupKey a) (getAssignmentHash a))
      (dedupKey a) = some (getAssignmentHash a)
    exact lookupStore_insertStore _ _ _
  next f hfind =>
    by_cases hch : contentChanged w a = true
    · rw [hch, if_pos rfl, hup hch]
      rw [if_neg (show ¬ (false = true) by simp)]
      rw [duePhase_store]
      show lookupStore (insertStore w.store (dedupKey a) (getAssignmentHash a))
        (dedupKey a) = some (getAssignmentHash a)
      exact lookupStore_insertStore _ _ _
    · rw [Bool.not_eq_true] at hch
      rw [hch]
      rw [if_neg (show ¬ (false = true) by simp)]
      rw [duePhase_store]
      show lookupStore (insertStore w.store (dedupKey a) (getAssignmentHash a))
        (dedupKey a) = some (getAssignmentHash a)
      exact lookupStore_insertStore _ _ _

theorem firstSubIdx_le_length : ∀ (l pat : Str) (i : Nat),
    firstSubIdx l pat = some i → i ≤ l.length := by
  intro l
  induction l with
  | nil =>
    intro pat i h
    unfold firstSubIdx at h
    split_ifs at h with h1
    simp only [Option.some.injEq] at h
    omega
  | cons c t ih =>
    intro pat i h
    unfold firstSubIdx at h
    split_ifs at h with h1
    · simp only [Option.some.injEq] at h
      omega
    · simp only [Option.map_eq_some'] at h
      rcases h with ⟨j, hj, rfl⟩
      have := ih pat j hj
      simp only [List.length_cons]
      omega

theorem updatedDetailsContent_take (a : CanvasAssignment) (content : Str) (i : Nat)
    (hidx : firstSubIdx content detailsMarker = some i) :
    (updatedDetailsContent a content).take i = content.take i := by
  have hrw : replaceDetailsOnward content (detailsTmpl a) =
      jsReplaceAt content i (content.length - i) (detailsTmpl a) := by
    unfold replaceDetailsOnward
    rw [hidx]
  unfold updatedDetailsContent
  rw [hrw]
  unfold jsReplaceAt
  rw [List.append_assoc, List.take_left']
  rw [List.length_take]
  have := firstSubIdx_le_length content detailsMarker i hidx
  omega

theorem findExistingAssignmentFile_mem {files : List VaultFile} {d n : Str}
    {f : VaultFile} (h : findExistingAssignmentFile files d n = some f) :
    f ∈ files :=
  List.mem_of_mem_filter (List.mem_of_find?_eq_some h)

theorem findFile_content_after_set (files : List VaultFile) (p c : Str)
    (h : ∃ g ∈ files, g.path = p) :
    (findFile (setFileContent files p c) p).map (fun g => g.content) = some c := by
  induction files with
  | nil => simp at h
  | cons g t ih =>
    by_cases hgp : g.path = p
    · simp only [setFileContent, List.map_cons, if_pos hgp, findFile, List.find?]
      rw [show decide (({ path := g.path, basename := g.basename, content := c } :
        VaultFile).path = p) = true by simp [hgp]]
      simp
    · simp only [setFileContent, List.map_cons, if_neg hgp, findFile, List.find?]
      rw [show decide (g.path = p) = false by simp [hgp]]
      rcases h with ⟨g2, hg2mem, hg2p⟩
      rcases List.mem_cons.mp hg2mem with rfl | hg2t
      · exact absurd hg2p hgp
      · exact ih ⟨g2, hg2t, hg2p⟩

/-- C7 (amended): under no error-continue and a successful due-date write,
each iteration's counter outcome is: create path — exactly the created
counter is incremented; existing-note path — exactly one of
due-date-updated / skipped is incremented, and updated is incremented
exactly when the content is classified Changed, so a changed note can
increment two counters in one iteration. -/
theorem processAssignment_counter_outcomes (st : PluginSettings) (env : ItemEnv)
    (w : World) (a : CanvasAssignment)
    (hmk : env.mkdirFail = false)
    (hdw : env.dueDateWriteFail = false)
    (hcr : findExistingAssignmentFile w.files (directoryPathOf st a)
        (cleanAssignmentName a.name) = none →
      (∃ tf, findFile w.files st.templatePath = some tf) ∧ env.createFail = false)
    (hup : contentChanged w a = true → env.updateFail = false) :
    (findExistingAssignmentFile w.files (directoryPathOf st a)
        (cleanAssignmentName a.name) = none ∧
      (processAssignment st env w a).createdCount = w.createdCount + 1 ∧
      (processAssignment st env w a).updatedCount = w.updatedCount ∧
      (processAssignment st env w a).dueDateUpdatedCount = w.dueDateUpdatedCount ∧
      (processAssignment st env w a).skippedCount = w.skippedCount) ∨
    ((∃ f, findExistingAssignmentFile w.files (directoryPathOf st a)
        (cleanAssignmentName a.name) = some f) ∧
      (processAssignment st env w a).createdCount = w.createdCount ∧
      (processAssignment st env w a).updatedCount =
        w.updatedCount + (if contentChanged w a then 1 else 0) ∧
      (((processAssignment st env w a).dueDateUpdatedCount = w.dueDateUpdatedCount + 1 ∧
        (processAssignment st env w a).skippedCount = w.skippedCount) ∨
       ((processAssignment st env w a).dueDateUpdatedCount = w.dueDateUpdatedCount ∧
        (processAssignment st env w a).skippedCount = w.skippedCount + 1))) := by
  unfold processAssignment
  simp only [hmk, Bool.false_eq_true, if_false]
  split
  next hfind =>
    obtain ⟨⟨tf, htf⟩, hcf⟩ := hcr hfind
    rw [htf, hcf]
    left
    exact ⟨hfind, rfl, rfl, rfl, rfl⟩
  next f hfind =>
    right
    refine ⟨⟨f, hfind⟩, ?_⟩
    by_cases hch : contentChanged w a = true
    · rw [hch, if_pos rfl, hup hch]
      rw [if_neg (show ¬ (false = true) by simp)]
      refine ⟨?_, ?_, ?_⟩
      · rw [duePhase_createdCount]
      · rw [duePhase_updatedCount]
        simp
      · exact duePhase_due_skip _ _ _ _ _ _ hdw
    · rw [Bool.not_eq_true] at hch
      rw [hch]
      rw [if_neg (show ¬ (false = true) by simp)]
      refine ⟨?_, ?_, ?_⟩
      · rw [duePhase_createdCount]
      · rw [duePhase_updatedCount]
        simp
      · exact duePhase_due_skip _ _ _ _ _ _ hdw

/-- C9: when a matching note exists, a prior fingerprint exists and
differs, the update write succeeds and the body holds the
`## Assignment Details` heading at first index `i`, the content update
stores exactly the old body up to `i` followed by the regenerated
section: every character before the heading is unchanged.  (The due-date
hypothesis pins the due-date pass to its skip branch so that the note
content seen afterwards is the content-update write itself.) -/
theorem processAssignment_update_frame (st : PluginSettings) (env : ItemEnv)
    (w : World) (a : CanvasAssignment) (f : VaultFile) (i : Nat)
    (hmk : env.mkdirFail = false)
    (hfind : findExistingAssignmentFile w.files (directoryPathOf st a)
      (cleanAssignmentName a.name) = some f)
    (hch : contentChanged w a = true)
    (hup : env.updateFail = false)
    (hidx : firstSubIdx f.content detailsMarker = some i)
    (hdue : currentDueOf (updatedDetailsContent a f.content) = formattedDateOf env a) :
    (findFile (processAssignment st env w a).files f.path).map (fun g => g.content) =
      some (updatedDetailsContent a f.content) ∧
    (updatedDetailsContent a f.content).take i = f.content.take i := by
  refine ⟨?_, updatedDetailsContent_take a f.content i hidx⟩
  unfold processAssignment
  simp only [hmk, Bool.false_eq_true, if_false]
  split
  next hf2 =>
    rw [hfind] at hf2
    exact Option.noConfusion hf2
  next f' hf2 =>
    rw [hfind] at hf2
    injection hf2 with hff
    subst hff
    rw [hch, if_pos rfl, hup]
    rw [if_neg (show ¬ (false = true) by simp)]
    rw [duePhase_files_skip _ _ _ _ _ _ hdue]
    exact findFile_content_after_set w.files f.path _
      ⟨f, findExistingAssignmentFile_mem hfind, rfl⟩

/-- C10: when the matching note's body holds no `## Assignment Details`
heading, the Changed-content branch writes the body back unchanged (the
anchored replacement matches nothing) and still increments the updated
counter. -/
theorem processAssignment_no_marker (st : PluginSettings) (env : ItemEnv)
    (w : World) (a : CanvasAssignment) (f : VaultFile)
    (hmk : env.mkdirFail = false)
    (hfind : findExistingAssignmentFile w.files (directoryPathOf st a)
      (cleanAssignmentName a.name) = some f)
    (hch : contentChanged w a = true)
    (hup : env.updateFail = false)
    (hnm : firstSubIdx f.content detailsMarker = none) :
    updatedDetailsContent a f.content = f.content ∧
    (processAssignment st env w a).updatedCount = w.updatedCount + 1 := by
  constructor
  · unfold updatedDetailsContent replaceDetailsOnward
    rw [hnm]
  · unfold processAssignment
    simp only [hmk, Bool.false_eq_true, if_false]
    split
    next hf2 =>
      rw [hfind] at hf2
      exact Option.noConfusion hf2
    next f' hf2 =>
      rw [hfind] at hf2
      injection hf2 with hff
      subst hff
      rw [hch, if_pos rfl, hup]
      rw [if_neg (show ¬ (false = true) by simp)]
      rw [duePhase_updatedCount]

/-- Concrete assignment used by the reconciliation scenarios. -/
def exAssignment : CanvasAssignment :=
  { id := 1
    name := ("Essay").data
    description := ("d").data
    html_url := ("u").data
    points_possible := 5
    due_at := none
    course_code := ("ENG101").data
    course_name := []
    course := ("ENG101").data }

/-- Existing note matching `exAssignment` whose body has no
`## Assignment Details` heading and no `duedate:` line. -/
def exFile : VaultFile :=
  { path := ("Spring 2025/ENG101/Assignments/Essay.md").data
    basename := ("Essay").data
    content := ("hello").data }

/-- Environment with every vault operation succeeding and identity moment
formatters. -/
def exEnv : ItemEnv :=
  { mkdirFail := false
    createFail := false
    updateFail := false
    dueDateWriteFail := false
    fmtShort := fun s => s
    fmtLong := fun s => s }

/-- World before the iteration: the matching note exists and the store
holds a stale fingerprint for the assignment's dedup key. -/
def exWorld : World :=
  { files := [exFile]
    folders := []
    store := [(dedupKey exAssignment, ("old").data)]
    createdCount := 0
    updatedCount := 0
    dueDateUpdatedCount := 0
    skippedCount := 0 }

/-- C7 counterexample: one assignment (matching note, stale fingerprint,
unchanged due date) increments BOTH the updated and the skipped counter in
a single iteration, so the counters are not incremented exactly once per
assignment outcome. -/
theorem processAssignment_two_counters :
    (processAssignment spring2025 exEnv exWorld exAssignment).createdCount = 0 ∧
    (processAssignment spring2025 exEnv exWorld exAssignment).updatedCount = 1 ∧
    (processAssignment spring2025 exEnv exWorld exAssignment).dueDateUpdatedCount = 0 ∧
    (processAssignment spring2025 exEnv exWorld exAssignment).skippedCount = 1 :=
  ⟨by decide, by decide, by decide, by decide⟩

/-- C7 witness: the amended counter characterisation at the concrete
scenario (existing-note path). -/
theorem processAssignment_counter_outcomes_witness :
    (findExistingAssignmentFile exWorld.files (directoryPathOf spring2025 exAssignment)
        (cleanAssignmentName exAssignment.name) = none ∧
      (processAssignment spring2025 exEnv exWorld exAssignment).createdCount =
        exWorld.createdCount + 1 ∧
      (processAssignment spring2025 exEnv exWorld exAssignment).updatedCount =
        exWorld.updatedCount ∧
      (processAssignment spring2025 exEnv exWorld exAssignment).dueDateUpdatedCount =
        exWorld.dueDateUpdatedCount ∧
      (processAssignment spring2025 exEnv exWorld exAssignment).skippedCount =
        exWorld.skippedCount) ∨
    ((∃ f, findExistingAssignmentFile exWorld.files (directoryPathOf spring2025 exAssignment)
        (cleanAssignmentName exAssignment.name) = some f) ∧
      (processAssignment spring2025 exEnv exWorld exAssignment).createdCount =
        exWorld.createdCount ∧
      (processAssignment spring2025 exEnv exWorld exAssignment).updatedCount =
        exWorld.updatedCount + (if contentChanged exWorld exAssignment then 1 else 0) ∧
      (((processAssignment spring2025 exEnv exWorld exAssignment).dueDateUpdatedCount =
          exWorld.dueDateUpdatedCount + 1 ∧
        (processAssignment spring2025 exEnv exWorld exAssignment).skippedCount =
          exWorld.skippedCount) ∨
       ((processAssignment spring2025 exEnv exWorld exAssignment).dueDateUpdatedCount =
          exWorld.dueDateUpdatedCount ∧
        (processAssignment spring2025 exEnv exWorld exAssignment).skippedCount =
          exWorld.skippedCount + 1))) :=
  processAssignment_counter_outcomes spring2025 exEnv exWorld exAssignment rfl rfl
    (fun hnone => absurd hnone (by decide))
    (fun _ => rfl)

/-- C8 witness: after the concrete iteration the store holds the current
fingerprint at the assignment's dedup key. -/
theorem processAssignment_store_witness :
    lookupStore (processAssignment spring2025 exEnv exWorld exAssignment).store
      (dedupKey exAssignment) = some (getAssignmentHash exAssignment) :=
  processAssignment_store spring2025 exEnv exWorld exAssignment rfl
    (fun hnone => absurd hnone (by decide))
    (fun _ => rfl)

/-- Existing note whose body holds the `## Assignment Details` heading at
index 1. -/
def exFileMarked : VaultFile :=
  { path := ("Spring 2025/ENG101/Assignments/Essay.md").data
    basename := ("Essay").data
    content := ("x## Assignment Details\nold").data }

/-- World for the frame scenario: the marked note and a stale
fingerprint. -/
def exWorldMarked : World :=
  { files := [exFileMarked]
    folders := []
    store := [(dedupKey exAssignment, ("old").data)]
    createdCount := 0
    updatedCount := 0
    dueDateUpdatedCount := 0
    skippedCount := 0 }

/-- C9 witness: the concrete content update rewrites from the heading at
index 1 onward and leaves the first character untouched. -/
theorem processAssignment_update_frame_witness :
    (findFile (processAssignment spring2025 exEnv exWorldMarked exAssignment).files
        exFileMarked.path).map (fun g => g.content) =
      some (updatedDetailsContent exAssignment exFileMarked.content) ∧
    (updatedDetailsContent exAssignment exFileMarked.content).take 1 =
      exFileMarked.content.take 1 :=
  processAssignment_update_frame spring2025 exEnv exWorldMarked exAssignment
    exFileMarked 1 rfl (by decide) (by decide) rfl (by decide) (by decide)

/-- C10 witness: on the markerless note the content update writes the body
back unchanged and still counts one update. -/
theorem processAssignment_no_marker_witness :
    updatedDetailsContent exAssignment exFile.content = exFile.content ∧
    (processAssignment spring2025 exEnv exWorld exAssignment).updatedCount =
      exWorld.updatedCount + 1 :=
  processAssignment_no_marker spring2025 exEnv exWorld exAssignment exFile rfl
    (by decide) (by decide) rfl (by decide)
